import Mathlib

/-!
Verification of the FastAPI_DataScience repository.

The core is `src/test_async.py`: a coroutine `printer(name, times)` that,
`times` times, prints `name` and then awaits `asyncio.sleep(1)`, and a
`main` that runs `gather(printer("A", 5), printer("B", 2))` on the asyncio
event loop.  We embed the printer body as an explicit trace of events and
the (library-provided) cooperative scheduler, timed-suspension primitive
and gather combinator as a deterministic step function, following the
specification's description of the scheduler (ready tasks resumed in
submission order, no task resumed before its wake time).

The HTTP fragments of `src/Chapter_3/path_op_param.py` are embedded as
pure functions over explicit stores.
-/

namespace AsyncSched

/-- One action of the printer coroutine body: an observable side-effect
record (a `print`) or a timed-suspension request (`await asyncio.sleep`). -/
inductive PEvent where
  | record (name : String)
  | sleep (dur : Nat)
deriving DecidableEq, Repr

def PEvent.isRecord : PEvent → Bool
  | .record _ => true
  | _ => false

def PEvent.isSleep : PEvent → Bool
  | .sleep _ => true
  | _ => false

/-- The trace of actions of `printer(name, times)` from src/test_async.py:
`for i in range(times): print(name); await asyncio.sleep(1)`.  Each loop
iteration emits one record and then one suspension request of one unit,
including on the final iteration. -/
def printerBody (name : String) : Nat → List PEvent
  | 0 => []
  | Nat.succ n => PEvent.record name :: PEvent.sleep 1 :: printerBody name n

/-- The suffix of a trace strictly after its last side-effect record. -/
def afterLastRecord (tr : List PEvent) : List PEvent :=
  (tr.reverse.takeWhile (fun e => !e.isRecord)).reverse

/-- How many timed-suspension requests a trace makes after its last step. -/
def suspensionsAfterLastStep (tr : List PEvent) : Nat :=
  (afterLastRecord tr).countP (fun e => e.isSleep)

/-- Modelled from the spec: the outcome of one Task step.  The source's
`printer` has only successful steps (`print` then `sleep`); the failing
variant is the spec's §4.1 unrecoverable step failure, whose handling code
(asyncio's task machinery) is not part of the repository's files. -/
inductive StepOutcome where
  | ok
  | fail
deriving DecidableEq, Repr

/-- A Task as the spec's data model describes it: a name, the steps still
to run, the fixed per-step suspension duration, and the wake time before
which the scheduler may not resume it.  A freshly submitted task is
immediately runnable (wake time 0). -/
structure Task where
  name : String
  steps : List StepOutcome
  dur : Nat
  wake : Nat
deriving DecidableEq, Repr

/-- One entry of the scheduler's observable log: the scheduler resumes a
task (recording the time and the task's wake time), a task emits its named
side-effect record, a task completes, or a task fails. -/
inductive SEvent where
  | resume (time : Nat) (wake : Nat) (name : String)
  | record (time : Nat) (name : String)
  | complete (time : Nat) (name : String)
  | failure (time : Nat) (name : String)
deriving DecidableEq, Repr

def eventTime : SEvent → Nat
  | .resume t _ _ => t
  | .record t _ => t
  | .complete t _ => t
  | .failure t _ => t

def eventName : SEvent → String
  | .resume _ _ n => n
  | .record _ n => n
  | .complete _ n => n
  | .failure _ n => n

def recordName : SEvent → Option String
  | .record _ n => some n
  | _ => none

def completeName : SEvent → Option String
  | .complete _ n => some n
  | _ => none

def failureName : SEvent → Option String
  | .failure _ n => some n
  | _ => none

/-- A task that left the run-set: it completed or failed. -/
def doneName : SEvent → Option String
  | .complete _ n => some n
  | .failure _ n => some n
  | _ => none

/-- The named side-effect records of a log, in emission order. -/
def records (log : List SEvent) : List String := log.filterMap recordName

def completions (log : List SEvent) : List String := log.filterMap completeName

def failures (log : List SEvent) : List String := log.filterMap failureName

/-- Fuel bound for the scheduler: every resumption either consumes one
step of a task or removes a task from the run-set. -/
def taskMeasure (t : Task) : Nat := t.steps.length + 1

def tasksMeasure (ts : List Task) : Nat := (ts.map taskMeasure).sum

/-- The earliest wake time in the run-set (0 for an empty set). -/
def minWake : List Task → Nat
  | [] => 0
  | [t] => t.wake
  | t :: u :: ts => min t.wake (minWake (u :: ts))

/-- Modelled from the spec: the scheduler resumes the first submitted task
whose wake time has elapsed (`t.wake ≤ now`), per the spec's tie-break
policy (submission order among simultaneously ready tasks).  Resuming a
task with no remaining steps completes it; a successful step emits the
task's record and suspends it for its fixed duration; a failing step
terminates the task at once.  Returns the events of this resumption and
the updated run-set, or `none` when no task is ready. -/
def resumeFirst (now : Nat) : List Task → Option (List SEvent × List Task)
  | [] => none
  | t :: ts =>
    if t.wake ≤ now then
      match t.steps with
      | [] =>
        some ([SEvent.resume now t.wake t.name, SEvent.complete now t.name], ts)
      | StepOutcome.ok :: rest =>
        some ([SEvent.resume now t.wake t.name, SEvent.record now t.name],
          { t with steps := rest, wake := now + t.dur } :: ts)
      | StepOutcome.fail :: _ =>
        some ([SEvent.resume now t.wake t.name, SEvent.failure now t.name], ts)
    else
      match resumeFirst now ts with
      | some (evs, rest) => some (evs, t :: rest)
      | none => none

/-- Modelled from the spec: the scheduler's event loop, with explicit fuel
(the fuel never runs out when it is at least `tasksMeasure ts`).  While
the run-set is non-empty, the clock advances to the earliest wake time if
no task is ready yet, the first ready task in submission order is resumed,
and the loop continues.  Returns the event log and the time at which the
run-set became empty (when the gather combinator returns). -/
def schedF : Nat → Nat → List Task → List SEvent × Nat
  | 0, now, _ => ([], now)
  | _ + 1, now, [] => ([], now)
  | fuel + 1, now, t :: ts =>
    let now2 := max now (minWake (t :: ts))
    match resumeFirst now2 (t :: ts) with
    | some (evs, ts2) =>
      let r := schedF fuel now2 ts2
      (evs ++ r.1, r.2)
    | none => ([], now2)

/-- Running a gather group to completion from time `now`: the event log
and the return time of the gather call. -/
def sched (now : Nat) (ts : List Task) : List SEvent × Nat :=
  schedF (tasksMeasure ts) now ts

/-- Modelled from the spec: the gather combinator's result — the first
task failure is surfaced to the caller; on success nothing is aggregated
(the unit value). -/
def gatherResult (log : List SEvent) : Except String Unit :=
  match failures log with
  | [] => Except.ok ()
  | n :: _ => Except.error n

/-- Modelled from the spec: the top-level caller (`asyncio.run(main())`)
terminates the process with a non-zero indication exactly when the
surfaced result is a failure. -/
def exitCode (log : List SEvent) : Nat :=
  match gatherResult log with
  | Except.ok _ => 0
  | Except.error _ => 1

/-- `printer(name, times)` from src/test_async.py as a schedulable Task:
`times` successful steps, each followed by `asyncio.sleep(1)`, submitted
immediately runnable. -/
def printer (name : String) (times : Nat) : Task :=
  { name := name, steps := List.replicate times StepOutcome.ok, dur := 1, wake := 0 }

/-- `main` from src/test_async.py: `asyncio.gather(printer("A",5),
printer("B",2))`, the two tasks submitted in that order. -/
def mainTasks : List Task := [printer "A" 5, printer "B" 2]

/-- The run `asyncio.run(main())` performs: both tasks from time 0. -/
def mainRun : List SEvent × Nat := sched 0 mainTasks

/-- A task none of whose steps fails (every task of the source program). -/
def noFail (t : Task) : Prop := StepOutcome.fail ∉ t.steps

instance (t : Task) : Decidable (noFail t) := by
  unfold noFail
  infer_instance

/-- The number of leading successful steps: the steps a task runs before
its first failing step (all of them when no step fails). -/
def leadingOks : List StepOutcome → Nat
  | [] => 0
  | StepOutcome.ok :: rest => leadingOks rest + 1
  | StepOutcome.fail :: _ => 0

/-- Modelled from the spec: the concrete failure scenario of spec section 8 -
a task named "B" whose first step fails with an unrecoverable error. -/
def failingB : Task :=
  { name := "B", steps := [StepOutcome.fail, StepOutcome.ok], dur := 1, wake := 0 }

end AsyncSched

namespace Chapter3
/-- The `Post` pydantic model of src/Chapter_3/path_op_param.py: a single
`title` field. -/
structure Post where
  title : String
deriving DecidableEq, Repr

/-- The `Post2` pydantic model: `title` and `nb_views`. -/
structure Post2 where
  title : String
  nb_views : Int
deriving DecidableEq, Repr

/-- The dummy database `posts = {1: Post2(title="Hello", nb_views=100)}`,
as a partial map from ids to posts. -/
def posts : Int → Option Post2 :=
  fun id => if id = 1 then some { title := "Hello", nb_views := 100 } else none

/-- Result of a bare dictionary lookup: the stored value, or an unhandled
`KeyError` carrying the missing key. -/
inductive LookupResult (α : Type) where
  | found (a : α)
  | keyError (id : Int)
deriving DecidableEq, Repr

/-- `get_post(id)` of src/Chapter_3/path_op_param.py: `return posts[id]`, a
plain dict lookup with no not-found handling, so a missing id is an
unhandled key error. -/
def get_post (id : Int) : LookupResult Post2 :=
  match posts id with
  | some p => LookupResult.found p
  | none => LookupResult.keyError id

/-- The store `posts2 = {1: Post(title="Hello", nb_views=100)}`; the model
`Post` has only `title`, the extra constructor argument is ignored. -/
def posts2 : Int → Option Post :=
  fun id => if id = 1 then some { title := "Hello" } else none

/-- `update_or_create_post(id, post, response)`: sets the response status
to 201 exactly when `id` is absent from the store, writes
`posts2[id] = post`, and returns `posts2[id]`.  The result is the updated
store, the explicitly set status (`none` for the framework default) and
the returned post. -/
def update_or_create_post (id : Int) (post : Post) (store : Int → Option Post) :
    (Int → Option Post) × Option Nat × Post :=
  let created := if (store id).isNone then some 201 else none
  let store2 := fun k => if k = id then some post else store k
  (store2, created, post)

/-- Outcome of `check_password`: an `HTTPException(status, detail)` or a
JSON message. -/
inductive PasswordResult where
  | httpError (status : Nat) (detail : String)
  | ok (message : String)
deriving DecidableEq, Repr

/-- `check_password(password, password_confirm)` of
src/Chapter_3/path_op_param.py: raises a 400 when the two differ, else
returns the match message. -/
def check_password (password password_confirm : String) : PasswordResult :=
  if password ≠ password_confirm then
    PasswordResult.httpError 400 "Passwords don't match."
  else
    PasswordResult.ok "Passwords match."

end Chapter3

namespace AsyncSched
@[simp] theorem isRecord_record (n : String) : (PEvent.record n).isRecord = true := rfl

@[simp] theorem isRecord_sleep (d : Nat) : (PEvent.sleep d).isRecord = false := rfl

@[simp] theorem isSleep_record (n : String) : (PEvent.record n).isSleep = false := rfl

@[simp] theorem isSleep_sleep (d : Nat) : (PEvent.sleep d).isSleep = true := rfl

theorem printerBody_succ_append (name : String) (n : Nat) :
    printerBody name (n + 1) = printerBody name n ++ [PEvent.record name, PEvent.sleep 1] := by
  induction n with
  | zero => rfl
  | succ n ih =>
    show PEvent.record name :: PEvent.sleep 1 :: printerBody name (n + 1) =
      PEvent.record name :: PEvent.sleep 1 ::
        (printerBody name n ++ [PEvent.record name, PEvent.sleep 1])
    rw [ih]

theorem afterLastRecord_printerBody (name : String) (n : Nat) :
    afterLastRecord (printerBody name (n + 1)) = [PEvent.sleep 1] := by
  rw [printerBody_succ_append]
  unfold afterLastRecord
  rw [List.reverse_append]
  rfl

theorem printerBody_count_record (name : String) (n : Nat) :
    (printerBody name n).countP (fun e => e.isRecord) = n := by
  induction n with
  | zero => rfl
  | succ n ih => simp [printerBody, List.countP_cons, ih]

theorem printerBody_count_sleep (name : String) (n : Nat) :
    (printerBody name n).countP (fun e => e.isSleep) = n := by
  induction n with
  | zero => rfl
  | succ n ih => simp [printerBody, List.countP_cons, ih]

theorem printerBody_filter_record (name : String) (n : Nat) :
    (printerBody name n).filter (fun e => e.isRecord) = List.replicate n (PEvent.record name) := by
  induction n with
  | zero => rfl
  | succ n ih =>
    simp [printerBody, List.filter_cons, ih, List.replicate_succ]

@[simp] theorem recordName_resume (t w : Nat) (n : String) :
    recordName (SEvent.resume t w n) = none := rfl

@[simp] theorem recordName_record (t : Nat) (n : String) :
    recordName (SEvent.record t n) = some n := rfl

@[simp] theorem recordName_complete (t : Nat) (n : String) :
    recordName (SEvent.complete t n) = none := rfl

@[simp] theorem recordName_failure (t : Nat) (n : String) :
    recordName (SEvent.failure t n) = none := rfl

@[simp] theorem completeName_resume (t w : Nat) (n : String) :
    completeName (SEvent.resume t w n) = none := rfl

@[simp] theorem completeName_record (t : Nat) (n : String) :
    completeName (SEvent.record t n) = none := rfl

@[simp] theorem completeName_complete (t : Nat) (n : String) :
    completeName (SEvent.complete t n) = some n := rfl

@[simp] theorem completeName_failure (t : Nat) (n : String) :
    completeName (SEvent.failure t n) = none := rfl

@[simp] theorem failureName_resume (t w : Nat) (n : String) :
    failureName (SEvent.resume t w n) = none := rfl

@[simp] theorem failureName_record (t : Nat) (n : String) :
    failureName (SEvent.record t n) = none := rfl

@[simp] theorem failureName_complete (t : Nat) (n : String) :
    failureName (SEvent.complete t n) = none := rfl

@[simp] theorem failureName_failure (t : Nat) (n : String) :
    failureName (SEvent.failure t n) = some n := rfl

@[simp] theorem doneName_resume (t w : Nat) (n : String) :
    doneName (SEvent.resume t w n) = none := rfl

@[simp] theorem doneName_record (t : Nat) (n : String) :
    doneName (SEvent.record t n) = none := rfl

@[simp] theorem doneName_complete (t : Nat) (n : String) :
    doneName (SEvent.complete t n) = some n := rfl

@[simp] theorem doneName_failure (t : Nat) (n : String) :
    doneName (SEvent.failure t n) = some n := rfl

@[simp] theorem eventName_resume (t w : Nat) (n : String) :
    eventName (SEvent.resume t w n) = n := rfl

@[simp] theorem eventName_record (t : Nat) (n : String) :
    eventName (SEvent.record t n) = n := rfl

@[simp] theorem eventName_complete (t : Nat) (n : String) :
    eventName (SEvent.complete t n) = n := rfl

@[simp] theorem eventName_failure (t : Nat) (n : String) :
    eventName (SEvent.failure t n) = n := rfl

theorem tasksMeasure_append (l1 l2 : List Task) :
    tasksMeasure (l1 ++ l2) = tasksMeasure l1 + tasksMeasure l2 := by
  simp [tasksMeasure]

theorem tasksMeasure_cons (t : Task) (l : List Task) :
    tasksMeasure (t :: l) = taskMeasure t + tasksMeasure l := by
  simp [tasksMeasure]

theorem tasksMeasure_eq_zero {ts : List Task} (h : tasksMeasure ts = 0) : ts = [] := by
  cases ts with
  | nil => rfl
  | cons t l =>
    rw [tasksMeasure_cons] at h
    simp [taskMeasure] at h

/-- What one resumption does: the run-set splits at the first ready task,
which either completes, runs one successful step and suspends, or fails
and is removed. -/
theorem resumeFirst_cases (now : Nat) (ts : List Task) (evs : List SEvent) (ts2 : List Task)
    (h : resumeFirst now ts = some (evs, ts2)) :
    ∃ pre u post, ts = pre ++ u :: post ∧ u.wake ≤ now ∧
      ((u.steps = [] ∧
          evs = [SEvent.resume now u.wake u.name, SEvent.complete now u.name] ∧
          ts2 = pre ++ post) ∨
       (∃ rest, u.steps = StepOutcome.ok :: rest ∧
          evs = [SEvent.resume now u.wake u.name, SEvent.record now u.name] ∧
          ts2 = pre ++ { u with steps := rest, wake := now + u.dur } :: post) ∨
       (∃ rest, u.steps = StepOutcome.fail :: rest ∧
          evs = [SEvent.resume now u.wake u.name, SEvent.failure now u.name] ∧
          ts2 = pre ++ post)) := by
  induction ts generalizing evs ts2 with
  | nil => simp [resumeFirst] at h
  | cons t l ih =>
    by_cases hw : t.wake ≤ now
    · refine ⟨[], t, l, rfl, hw, ?_⟩
      cases hs : t.steps with
      | nil =>
        simp [resumeFirst, hw, hs] at h
        exact Or.inl ⟨rfl, h.1.symm, h.2.symm⟩
      | cons s rest =>
        cases s with
        | ok =>
          simp [resumeFirst, hw, hs] at h
          exact Or.inr (Or.inl ⟨rest, rfl, h.1.symm, h.2.symm⟩)
        | fail =>
          simp [resumeFirst, hw, hs] at h
          exact Or.inr (Or.inr ⟨rest, rfl, h.1.symm, h.2.symm⟩)
    · rw [resumeFirst] at h
      simp only [if_neg hw] at h
      cases hr : resumeFirst now l with
      | none => rw [hr] at h; exact absurd h (by simp)
      | some p =>
        rw [hr] at h
        obtain ⟨evs0, rest0⟩ := p
        simp at h
        obtain ⟨pre, u, post, hsplit, hwu, hcase⟩ := ih evs0 rest0 hr
        refine ⟨t :: pre, u, post, by rw [hsplit]; rfl, hwu, ?_⟩
        rcases hcase with ⟨h1, h2, h3⟩ | ⟨rest, h1, h2, h3⟩ | ⟨rest, h1, h2, h3⟩
        · exact Or.inl ⟨h1, by rw [← h.1, h2], by rw [← h.2, h3]; rfl⟩
        · exact Or.inr (Or.inl ⟨rest, h1, by rw [← h.1, h2], by rw [← h.2, h3]; rfl⟩)
        · exact Or.inr (Or.inr ⟨rest, h1, by rw [← h.1, h2], by rw [← h.2, h3]; rfl⟩)

theorem resumeFirst_measure (now : Nat) (ts : List Task) (evs : List SEvent) (ts2 : List Task)
    (h : resumeFirst now ts = some (evs, ts2)) :
    tasksMeasure ts2 < tasksMeasure ts := by
  obtain ⟨pre, u, post, hsplit, _, hcase⟩ := resumeFirst_cases now ts evs ts2 h
  subst hsplit
  rcases hcase with ⟨h1, _, h3⟩ | ⟨rest, h1, _, h3⟩ | ⟨rest, h1, _, h3⟩ <;> subst h3
  · simp [tasksMeasure_append, tasksMeasure_cons, taskMeasure]
  · simp [tasksMeasure_append, tasksMeasure_cons, taskMeasure, h1]
  · simp [tasksMeasure_append, tasksMeasure_cons, taskMeasure]

theorem exists_wake_le_minWake (ts : List Task) (hne : ts ≠ []) :
    ∃ t ∈ ts, t.wake ≤ minWake ts := by
  induction ts with
  | nil => exact absurd rfl hne
  | cons t l ih =>
    cases l with
    | nil => exact ⟨t, by simp, by simp [minWake]⟩
    | cons u m =>
      rcases Nat.le_total t.wake (minWake (u :: m)) with hle | hle
      · exact ⟨t, by simp, by simp [minWake]; omega⟩
      · obtain ⟨v, hv, hvw⟩ := ih (by simp)
        refine ⟨v, List.mem_cons_of_mem t hv, ?_⟩
        simp only [minWake]
        omega

theorem resumeFirst_isSome (now : Nat) (ts : List Task)
    (h : ∃ t ∈ ts, t.wake ≤ now) : (resumeFirst now ts).isSome := by
  induction ts with
  | nil => simp at h
  | cons t l ih =>
    by_cases hw : t.wake ≤ now
    · cases hs : t.steps with
      | nil => simp [resumeFirst, hw, hs]
      | cons s rest => cases s <;> simp [resumeFirst, hw, hs]
    · obtain ⟨u, hu, huw⟩ := h
      rcases List.mem_cons.mp hu with rfl | hu
      · exact absurd huw hw
      · have := ih ⟨u, hu, huw⟩
        rw [resumeFirst]
        simp only [if_neg hw]
        cases hr : resumeFirst now l with
        | none => rw [hr] at this; simp at this
        | some p => obtain ⟨a, b⟩ := p; simp

theorem resumeFirst_resume_wake (now : Nat) (ts : List Task) (evs : List SEvent)
    (ts2 : List Task) (h : resumeFirst now ts = some (evs, ts2)) :
    ∀ tm w n, SEvent.resume tm w n ∈ evs → w ≤ tm := by
  obtain ⟨pre, u, post, _, hwu, hcase⟩ := resumeFirst_cases now ts evs ts2 h
  intro tm w n hmem
  rcases hcase with ⟨_, h2, _⟩ | ⟨rest, _, h2, _⟩ | ⟨rest, _, h2, _⟩ <;> subst h2 <;>
    simp only [List.mem_cons, List.not_mem_nil, or_false] at hmem <;>
    rcases hmem with h | h <;>
    first
      | (rw [SEvent.resume.injEq] at h
         obtain ⟨rfl, rfl, rfl⟩ := h
         exact hwu)
      | exact absurd h (by simp)

theorem resumeFirst_times (now : Nat) (ts : List Task) (evs : List SEvent)
    (ts2 : List Task) (h : resumeFirst now ts = some (evs, ts2)) :
    ∀ e ∈ evs, eventTime e = now := by
  obtain ⟨pre, u, post, _, _, hcase⟩ := resumeFirst_cases now ts evs ts2 h
  intro e hmem
  rcases hcase with ⟨_, h2, _⟩ | ⟨rest, _, h2, _⟩ | ⟨rest, _, h2, _⟩ <;> subst h2 <;>
    simp only [List.mem_cons, List.not_mem_nil, or_false] at hmem <;>
    rcases hmem with rfl | rfl <;> rfl

theorem resumeFirst_names_perm (now : Nat) (ts : List Task) (evs : List SEvent)
    (ts2 : List Task) (h : resumeFirst now ts = some (evs, ts2)) :
    (evs.filterMap doneName ++ ts2.map Task.name).Perm (ts.map Task.name) := by
  obtain ⟨pre, u, post, hsplit, _, hcase⟩ := resumeFirst_cases now ts evs ts2 h
  subst hsplit
  rcases hcase with ⟨_, h2, h3⟩ | ⟨rest, _, h2, h3⟩ | ⟨rest, _, h2, h3⟩ <;>
    subst h2 <;> subst h3 <;>
    simp [doneName, List.filterMap_cons]
  · exact List.perm_middle.symm
  · exact List.perm_middle.symm

theorem resumeFirst_noFail (now : Nat) (ts : List Task) (evs : List SEvent)
    (ts2 : List Task) (h : resumeFirst now ts = some (evs, ts2))
    (hts : ∀ t ∈ ts, noFail t) :
    (∀ t ∈ ts2, noFail t) ∧ evs.filterMap failureName = [] := by
  obtain ⟨pre, u, post, hsplit, _, hcase⟩ := resumeFirst_cases now ts evs ts2 h
  subst hsplit
  rcases hcase with ⟨h1, h2, h3⟩ | ⟨rest, h1, h2, h3⟩ | ⟨rest, h1, h2, h3⟩ <;>
    subst h2 <;> subst h3
  · refine ⟨fun t ht => hts t ?_, by simp [failureName]⟩
    rcases List.mem_append.mp ht with h | h
    · exact List.mem_append.mpr (Or.inl h)
    · exact List.mem_append.mpr (Or.inr (List.mem_cons_of_mem u h))
  · refine ⟨fun t ht => ?_, by simp [failureName]⟩
    rcases List.mem_append.mp ht with h | h
    · exact hts t (List.mem_append.mpr (Or.inl h))
    · rcases List.mem_cons.mp h with rfl | h
      · have hu : noFail u := hts u (List.mem_append.mpr (Or.inr (List.mem_cons_self u post)))
        unfold noFail at hu ⊢
        rw [h1] at hu
        simp at hu
        simpa using hu
      · exact hts t (List.mem_append.mpr (Or.inr (List.mem_cons_of_mem u h)))
  · exfalso
    have hu : noFail u := hts u (List.mem_append.mpr (Or.inr (List.mem_cons_self u post)))
    unfold noFail at hu
    rw [h1] at hu
    simp at hu

theorem resumeFirst_eventName_mem (now : Nat) (ts : List Task) (evs : List SEvent)
    (ts2 : List Task) (h : resumeFirst now ts = some (evs, ts2)) :
    (∀ e ∈ evs, eventName e ∈ ts.map Task.name) ∧
    (∀ n, n ∈ ts2.map Task.name → n ∈ ts.map Task.name) := by
  have hperm := resumeFirst_names_perm now ts evs ts2 h
  refine ⟨?_, fun n hn => hperm.mem_iff.mp (List.mem_append.mpr (Or.inr hn))⟩
  obtain ⟨pre, u, post, hsplit, _, hcase⟩ := resumeFirst_cases now ts evs ts2 h
  have humem : u.name ∈ ts.map Task.name := by rw [hsplit]; simp
  intro e he
  rcases hcase with ⟨_, h2, _⟩ | ⟨rest, _, h2, _⟩ | ⟨rest, _, h2, _⟩ <;> subst h2 <;>
    simp only [List.mem_cons, List.not_mem_nil, or_false] at he <;>
    rcases he with rfl | rfl <;> exact humem

theorem schedF_now_le (fuel now : Nat) (ts : List Task) :
    now ≤ (schedF fuel now ts).2 := by
  induction fuel generalizing now ts with
  | zero => exact Nat.le_refl now
  | succ fuel ih =>
    cases ts with
    | nil => exact Nat.le_refl now
    | cons t l =>
      rw [schedF]
      cases hr : resumeFirst (max now (minWake (t :: l))) (t :: l) with
      | none => exact Nat.le_max_left _ _
      | some p =>
        obtain ⟨evs, ts2⟩ := p
        exact Nat.le_trans (Nat.le_max_left _ _) (ih _ ts2)

theorem schedF_eventTime_le (fuel now : Nat) (ts : List Task) :
    ∀ e ∈ (schedF fuel now ts).1, eventTime e ≤ (schedF fuel now ts).2 := by
  induction fuel generalizing now ts with
  | zero => intro e he; simp [schedF] at he
  | succ fuel ih =>
    cases ts with
    | nil => intro e he; simp [schedF] at he
    | cons t l =>
      rw [schedF]
      cases hr : resumeFirst (max now (minWake (t :: l))) (t :: l) with
      | none => intro e he; simp at he
      | some p =>
        obtain ⟨evs, ts2⟩ := p
        intro e he
        rcases List.mem_append.mp he with h | h
        · rw [resumeFirst_times _ _ _ _ hr e h]
          exact schedF_now_le fuel _ ts2
        · exact ih _ ts2 e h

theorem schedF_resume_wake (fuel now : Nat) (ts : List Task) :
    ∀ tm w n, SEvent.resume tm w n ∈ (schedF fuel now ts).1 → w ≤ tm := by
  induction fuel generalizing now ts with
  | zero => intro tm w n h; simp [schedF] at h
  | succ fuel ih =>
    cases ts with
    | nil => intro tm w n h; simp [schedF] at h
    | cons t l =>
      rw [schedF]
      cases hr : resumeFirst (max now (minWake (t :: l))) (t :: l) with
      | none => intro tm w n h; simp at h
      | some p =>
        obtain ⟨evs, ts2⟩ := p
        intro tm w n h
        rcases List.mem_append.mp h with h | h
        · exact resumeFirst_resume_wake _ _ _ _ hr tm w n h
        · exact ih _ ts2 tm w n h

theorem schedF_done_perm (fuel : Nat) : ∀ (now : Nat) (ts : List Task),
    tasksMeasure ts ≤ fuel →
    ((schedF fuel now ts).1.filterMap doneName).Perm (ts.map Task.name) := by
  induction fuel with
  | zero =>
    intro now ts hm
    rw [tasksMeasure_eq_zero (Nat.le_zero.mp hm)]
    simp [schedF]
  | succ fuel ih =>
    intro now ts hm
    cases ts with
    | nil => simp [schedF]
    | cons t l =>
      rw [schedF]
      cases hr : resumeFirst (max now (minWake (t :: l))) (t :: l) with
      | none =>
        exfalso
        have := resumeFirst_isSome (max now (minWake (t :: l))) (t :: l) ?_
        · rw [hr] at this; simp at this
        · obtain ⟨u, hu, huw⟩ := exists_wake_le_minWake (t :: l) (by simp)
          exact ⟨u, hu, Nat.le_trans huw (Nat.le_max_right _ _)⟩
      | some p =>
        obtain ⟨evs, ts2⟩ := p
        have hlt := resumeFirst_measure _ _ _ _ hr
        have hperm := resumeFirst_names_perm _ _ _ _ hr
        have ihp := ih (max now (minWake (t :: l))) ts2 (by omega)
        rw [List.filterMap_append]
        exact (ihp.append_left (evs.filterMap doneName)).trans hperm

theorem schedF_noFail_failures (fuel : Nat) : ∀ (now : Nat) (ts : List Task),
    (∀ t ∈ ts, noFail t) →
    (schedF fuel now ts).1.filterMap failureName = [] := by
  induction fuel with
  | zero => intro now ts _; simp [schedF]
  | succ fuel ih =>
    intro now ts hts
    cases ts with
    | nil => simp [schedF]
    | cons t l =>
      rw [schedF]
      cases hr : resumeFirst (max now (minWake (t :: l))) (t :: l) with
      | none => simp
      | some p =>
        obtain ⟨evs, ts2⟩ := p
        obtain ⟨hts2, hevs⟩ := resumeFirst_noFail _ _ _ _ hr hts
        simp only [List.filterMap_append, hevs, List.nil_append]
        exact ih _ ts2 hts2

theorem schedF_eventName_mem (fuel : Nat) : ∀ (now : Nat) (ts : List Task),
    ∀ e ∈ (schedF fuel now ts).1, eventName e ∈ ts.map Task.name := by
  induction fuel with
  | zero => intro now ts e he; simp [schedF] at he
  | succ fuel ih =>
    intro now ts e he
    cases ts with
    | nil => simp [schedF] at he
    | cons t l =>
      rw [schedF] at he
      revert he
      cases hr : resumeFirst (max now (minWake (t :: l))) (t :: l) with
      | none => intro he; simp at he
      | some p =>
        obtain ⟨evs, ts2⟩ := p
        intro he
        obtain ⟨h1, h2⟩ := resumeFirst_eventName_mem _ _ _ _ hr
        rcases List.mem_append.mp he with h | h
        · exact h1 e h
        · exact h2 _ (ih _ ts2 e h)

theorem resumeFirst_ne_none (now : Nat) (t : Task) (l : List Task) :
    resumeFirst (max now (minWake (t :: l))) (t :: l) ≠ none := by
  intro h
  have hs := resumeFirst_isSome (max now (minWake (t :: l))) (t :: l) ?_
  · rw [h] at hs; simp at hs
  · obtain ⟨u, hu, huw⟩ := exists_wake_le_minWake (t :: l) (by simp)
    exact ⟨u, hu, Nat.le_trans huw (Nat.le_max_right _ _)⟩

theorem mem_records_eventName (log : List SEvent) (n : String) (h : n ∈ records log) :
    ∃ e ∈ log, eventName e = n := by
  unfold records at h
  obtain ⟨e, he, hn⟩ := List.mem_filterMap.mp h
  refine ⟨e, he, ?_⟩
  cases e <;> simp_all

@[simp] theorem leadingOks_nil : leadingOks [] = 0 := rfl

@[simp] theorem leadingOks_ok (rest : List StepOutcome) :
    leadingOks (StepOutcome.ok :: rest) = leadingOks rest + 1 := rfl

@[simp] theorem leadingOks_fail (rest : List StepOutcome) :
    leadingOks (StepOutcome.fail :: rest) = 0 := rfl

/-- The scheduler's behaviour towards the one failing task of a group: it
runs exactly the steps before the failing one (counted by `leadingOks`),
emits exactly one failure, and no other task fails. -/
theorem schedF_failure_spec (fuel : Nat) : ∀ (now : Nat) (ts : List Task) (t : Task),
    tasksMeasure ts ≤ fuel → t ∈ ts → StepOutcome.fail ∈ t.steps →
    (ts.map Task.name).Nodup → (∀ u ∈ ts, u ≠ t → noFail u) →
    (records (schedF fuel now ts).1).count t.name = leadingOks t.steps ∧
    failures (schedF fuel now ts).1 = [t.name] := by
  induction fuel with
  | zero =>
    intro now ts t hm hmem _ _ _
    rw [tasksMeasure_eq_zero (Nat.le_zero.mp hm)] at hmem
    simp at hmem
  | succ fuel ih =>
    intro now ts t hm hmem hfail hnodup hothers
    cases ts with
    | nil => simp at hmem
    | cons a l =>
      rw [schedF]
      cases hr : resumeFirst (max now (minWake (a :: l))) (a :: l) with
      | none => exact absurd hr (resumeFirst_ne_none now a l)
      | some p =>
        obtain ⟨evs, ts2⟩ := p
        have hlt := resumeFirst_measure _ _ _ _ hr
        obtain ⟨pre, u, post, hsplit, hwu, hcase⟩ := resumeFirst_cases _ _ _ _ hr
        have hnames : (a :: l).map Task.name =
            pre.map Task.name ++ u.name :: post.map Task.name := by
          rw [hsplit]; simp
        have hnodup2 : u.name ∉ pre.map Task.name ++ post.map Task.name ∧
            (pre.map Task.name ++ post.map Task.name).Nodup := by
          have hx := hnodup
          rw [hnames] at hx
          exact List.nodup_cons.mp (List.nodup_middle.mp hx)
        have hu_mem : u ∈ a :: l := by rw [hsplit]; simp
        have hpre_ne : ∀ v ∈ pre, v.name ≠ u.name := by
          intro v hv heq
          exact hnodup2.1 (List.mem_append.mpr (Or.inl (heq ▸ List.mem_map_of_mem Task.name hv)))
        have hpost_ne : ∀ v ∈ post, v.name ≠ u.name := by
          intro v hv heq
          exact hnodup2.1 (List.mem_append.mpr (Or.inr (heq ▸ List.mem_map_of_mem Task.name hv)))
        by_cases hut : u = t
        · subst hut
          rcases hcase with ⟨h1, h2, h3⟩ | ⟨rest, h1, h2, h3⟩ | ⟨rest, h1, h2, h3⟩
          · rw [h1] at hfail
            simp at hfail
          · -- the failing task runs one successful step and is resumed later
            subst h2
            subst h3
            have hfail2 : StepOutcome.fail ∈ rest := by
              rw [h1] at hfail
              simpa using hfail
            have hnodup3 :
                ((pre ++ { u with steps := rest, wake := max now (minWake (a :: l)) + u.dur }
                  :: post).map Task.name).Nodup := by
              simpa using List.nodup_middle.mpr (List.nodup_cons.mpr hnodup2)
            have hothers2 : ∀ v ∈ pre ++
                { u with steps := rest, wake := max now (minWake (a :: l)) + u.dur } :: post,
                v ≠ { u with steps := rest, wake := max now (minWake (a :: l)) + u.dur } →
                noFail v := by
              intro v hv hne
              rcases List.mem_append.mp hv with hvp | hvc
              · refine hothers v (by rw [hsplit]; exact List.mem_append.mpr (Or.inl hvp)) ?_
                intro hvt
                exact hpre_ne v hvp (by rw [hvt])
              · rcases List.mem_cons.mp hvc with rfl | hvp
                · exact absurd rfl hne
                · refine hothers v
                    (by rw [hsplit]; exact List.mem_append.mpr (Or.inr (List.mem_cons_of_mem u hvp))) ?_
                  intro hvt
                  exact hpost_ne v hvp (by rw [hvt])
            obtain ⟨ihc, ihf⟩ := ih (max now (minWake (a :: l)))
              (pre ++ { u with steps := rest, wake := max now (minWake (a :: l)) + u.dur } :: post)
              { u with steps := rest, wake := max now (minWake (a :: l)) + u.dur }
              (by omega) (by simp) hfail2 hnodup3 hothers2
            constructor
            · rw [h1, leadingOks_ok]
              simp only [records, List.filterMap_append, List.filterMap_cons,
                recordName_resume, recordName_record, List.cons_append, List.nil_append]
              rw [List.count_cons_self]
              simpa [records] using ihc
            · simp only [failures, List.filterMap_append, List.filterMap_cons,
                failureName_resume, failureName_record, List.nil_append]
              simpa [failures] using ihf
          · -- the failing task fails now and is removed
            subst h2
            subst h3
            have hts2 : ∀ v ∈ pre ++ post, noFail v := by
              intro v hv
              rcases List.mem_append.mp hv with hvp | hvp
              · refine hothers v (by rw [hsplit]; exact List.mem_append.mpr (Or.inl hvp)) ?_
                intro hvt
                exact hpre_ne v hvp (by rw [hvt])
              · refine hothers v
                  (by rw [hsplit]; exact List.mem_append.mpr (Or.inr (List.mem_cons_of_mem u hvp))) ?_
                intro hvt
                exact hpost_ne v hvp (by rw [hvt])
            have hnof := schedF_noFail_failures fuel (max now (minWake (a :: l))) (pre ++ post) hts2
            have hnorec :
                u.name ∉ records (schedF fuel (max now (minWake (a :: l))) (pre ++ post)).1 := by
              intro hin
              obtain ⟨e, he, hen⟩ := mem_records_eventName _ _ hin
              have := schedF_eventName_mem fuel (max now (minWake (a :: l))) (pre ++ post) e he
              rw [hen] at this
              exact hnodup2.1 (by simpa using this)
            constructor
            · rw [h1, leadingOks_fail]
              simp only [records, List.filterMap_append, List.filterMap_cons,
                recordName_resume, recordName_failure, List.cons_append, List.nil_append]
              simpa [records] using List.count_eq_zero.mpr hnorec
            · simp only [failures, List.filterMap_append, List.filterMap_cons,
                failureName_resume, failureName_failure, List.cons_append, List.nil_append]
              rw [hnof]
        · -- another task is resumed; the failing task is untouched
          have hname : u.name ≠ t.name := by
            intro heq
            exact hut (List.inj_on_of_nodup_map hnodup hu_mem hmem heq)
          have hufail : noFail u := hothers u hu_mem hut
          have hmem_split : t ∈ pre ∨ t ∈ post := by
            rw [hsplit] at hmem
            rcases List.mem_append.mp hmem with h | h
            · exact Or.inl h
            · rcases List.mem_cons.mp h with rfl | h
              · exact absurd rfl (Ne.symm hut)
              · exact Or.inr h
          rcases hcase with ⟨h1, h2, h3⟩ | ⟨rest, h1, h2, h3⟩ | ⟨rest, h1, h2, h3⟩
          · -- the other task completes
            subst h2
            subst h3
            have hmem2 : t ∈ pre ++ post := List.mem_append.mpr hmem_split
            have hnodup3 : ((pre ++ post).map Task.name).Nodup := by
              simpa using hnodup2.2
            have hothers2 : ∀ v ∈ pre ++ post, v ≠ t → noFail v := by
              intro v hv hne
              rcases List.mem_append.mp hv with hvp | hvp
              · exact hothers v (by rw [hsplit]; exact List.mem_append.mpr (Or.inl hvp)) hne
              · exact hothers v
                  (by rw [hsplit]; exact List.mem_append.mpr (Or.inr (List.mem_cons_of_mem u hvp)))
                  hne
            obtain ⟨ihc, ihf⟩ := ih (max now (minWake (a :: l))) (pre ++ post) t
              (by omega) hmem2 hfail hnodup3 hothers2
            constructor
            · simp only [records, List.filterMap_append, List.filterMap_cons,
                recordName_resume, recordName_complete, List.nil_append]
              simpa [records] using ihc
            · simp only [failures, List.filterMap_append, List.filterMap_cons,
                failureName_resume, failureName_complete, List.nil_append]
              simpa [failures] using ihf
          · -- the other task runs one successful step
            subst h2
            subst h3
            have hmem2 : t ∈ pre ++
                { u with steps := rest, wake := max now (minWake (a :: l)) + u.dur } :: post := by
              rcases hmem_split with h | h
              · exact List.mem_append.mpr (Or.inl h)
              · exact List.mem_append.mpr (Or.inr (List.mem_cons_of_mem _ h))
            have hnodup3 :
                ((pre ++ { u with steps := rest, wake := max now (minWake (a :: l)) + u.dur }
                  :: post).map Task.name).Nodup := by
              simpa using List.nodup_middle.mpr (List.nodup_cons.mpr hnodup2)
            have hothers2 : ∀ v ∈ pre ++
                { u with steps := rest, wake := max now (minWake (a :: l)) + u.dur } :: post,
                v ≠ t → noFail v := by
              intro v hv hne
              rcases List.mem_append.mp hv with hvp | hvc
              · exact hothers v (by rw [hsplit]; exact List.mem_append.mpr (Or.inl hvp)) hne
              · rcases List.mem_cons.mp hvc with rfl | hvp
                · unfold noFail at hufail ⊢
                  rw [h1] at hufail
                  simp at hufail
                  simpa using hufail
                · exact hothers v
                    (by rw [hsplit]; exact List.mem_append.mpr (Or.inr (List.mem_cons_of_mem u hvp)))
                    hne
            obtain ⟨ihc, ihf⟩ := ih (max now (minWake (a :: l)))
              (pre ++ { u with steps := rest, wake := max now (minWake (a :: l)) + u.dur } :: post)
              t (by omega) hmem2 hfail hnodup3 hothers2
            constructor
            · simp only [records, List.filterMap_append, List.filterMap_cons,
                recordName_resume, recordName_record, List.cons_append, List.nil_append]
              rw [List.count_cons_of_ne (Ne.symm hname)]
              simpa [records] using ihc
            · simp only [failures, List.filterMap_append, List.filterMap_cons,
                failureName_resume, failureName_record, List.nil_append]
              simpa [failures] using ihf
          · -- impossible: the other task cannot fail
            exfalso
            unfold noFail at hufail
            rw [h1] at hufail
            simp at hufail

/-- In a log whose failure list is empty, the departures are exactly the
completions. -/
theorem filterMap_done_of_no_failures (log : List SEvent)
    (h : log.filterMap failureName = []) :
    log.filterMap doneName = log.filterMap completeName := by
  induction log with
  | nil => rfl
  | cons e l ih =>
    cases e with
    | resume t w n =>
      simp only [List.filterMap_cons, failureName_resume] at h
      simp only [List.filterMap_cons, doneName_resume, completeName_resume]
      exact ih h
    | record t n =>
      simp only [List.filterMap_cons, failureName_record] at h
      simp only [List.filterMap_cons, doneName_record, completeName_record]
      exact ih h
    | complete t n =>
      simp only [List.filterMap_cons, failureName_complete] at h
      simp only [List.filterMap_cons, doneName_complete, completeName_complete]
      rw [ih h]
    | failure t n =>
      simp only [List.filterMap_cons, failureName_failure] at h
      exact absurd h (by simp)

/-- C1 counterexample: the printer with one step issues one timed-suspension
request after its last step - `printerBody "A" 1` ends in `sleep 1` - so the
claim of zero suspension requests after the last step fails at N = 1. -/
theorem printer_sleeps_after_last_step :
    ¬ suspensionsAfterLastStep (printerBody "A" 1) = 0 := by decide

/-- C1 (amended): for every name and every N >= 0, the printer body emits
exactly N side-effect records tagged with its name, in step order, before
completing, and issues exactly one timed-suspension request after each
step, including a single one after its last step. -/
theorem printer_steps_spec (name : String) (N : Nat) :
    (printerBody name N).countP (fun e => e.isRecord) = N ∧
    (printerBody name N).filter (fun e => e.isRecord) = List.replicate N (PEvent.record name) ∧
    (printerBody name N).countP (fun e => e.isSleep) = N ∧
    (0 < N → suspensionsAfterLastStep (printerBody name N) = 1) := by
  refine ⟨printerBody_count_record name N, printerBody_filter_record name N,
    printerBody_count_sleep name N, fun h => ?_⟩
  obtain ⟨m, rfl⟩ := Nat.exists_eq_succ_of_ne_zero (Nat.pos_iff_ne_zero.mp h)
  rw [suspensionsAfterLastStep, afterLastRecord_printerBody]
  rfl

/-- C2: Task A (5 steps) and Task B (2 steps) submitted together in that
order produce exactly the record sequence A,B,A,B,A,A,A (A first whenever
both are ready, B absent from step 3 on), and gather returns at time 5,
only after A's 5th step (emitted at time 4) has completed at time 5. -/
theorem gather_interleaving :
    records mainRun.1 = ["A", "B", "A", "B", "A", "A", "A"] ∧
    SEvent.record 4 "A" ∈ mainRun.1 ∧
    SEvent.complete 5 "A" ∈ mainRun.1 ∧
    mainRun.2 = 5 := by decide

/-- C3: a suspended task is never resumed before its wake time (every
resumption the scheduler logs happens no earlier than the logged wake
time), and while a task is suspended another ready task may be resumed: in
the main run A suspends at time 0 until time 1 and B is resumed at time 0
in between. -/
theorem no_early_resume :
    (∀ now ts tm w n, SEvent.resume tm w n ∈ (sched now ts).1 → w ≤ tm) ∧
    mainRun.1.take 6 = [SEvent.resume 0 0 "A", SEvent.record 0 "A",
      SEvent.resume 0 0 "B", SEvent.record 0 "B",
      SEvent.resume 1 1 "A", SEvent.record 1 "A"] :=
  ⟨fun now ts tm w n h => schedF_resume_wake (tasksMeasure ts) now ts tm w n h, by decide⟩

/-- C4: with fixed per-step durations and fixed submission order, any two
executions of the gather group A(5 steps), B(2 steps) produce the same
record sequence, namely the fixed interleaving A,B,A,B,A,A,A. -/
theorem gather_deterministic (r1 r2 : List String)
    (h1 : r1 = records (sched 0 [printer "A" 5, printer "B" 2]).1)
    (h2 : r2 = records (sched 0 [printer "A" 5, printer "B" 2]).1) :
    r1 = r2 ∧ r1 = ["A", "B", "A", "B", "A", "A", "A"] := by
  subst h1
  subst h2
  exact ⟨rfl, by decide⟩

/-- C4 witness: the two executions at the concrete record sequence. -/
theorem gather_deterministic_witness :
    ["A", "B", "A", "B", "A", "A", "A"] = ["A", "B", "A", "B", "A", "A", "A"] ∧
    (["A", "B", "A", "B", "A", "A", "A"] : List String) =
      ["A", "B", "A", "B", "A", "A", "A"] :=
  gather_deterministic ["A", "B", "A", "B", "A", "A", "A"]
    ["A", "B", "A", "B", "A", "A", "A"] (by decide) (by decide)

/-- C5: for every task list in which every task succeeds, gather returns
only after every submitted task has completed (the completion events are
exactly the submitted names and every event precedes the return time), and
it aggregates no value (the surfaced result is the informationless
success). -/
theorem gather_waits_for_all (now : Nat) (ts : List Task)
    (h : ∀ t ∈ ts, noFail t) :
    (completions (sched now ts).1).Perm (ts.map Task.name) ∧
    (∀ e ∈ (sched now ts).1, eventTime e ≤ (sched now ts).2) ∧
    gatherResult (sched now ts).1 = Except.ok () := by
  have hfail : (sched now ts).1.filterMap failureName = [] :=
    schedF_noFail_failures (tasksMeasure ts) now ts h
  refine ⟨?_, fun e he => schedF_eventTime_le (tasksMeasure ts) now ts e he, ?_⟩
  · have hdone := schedF_done_perm (tasksMeasure ts) now ts (Nat.le_refl _)
    rw [completions, ← filterMap_done_of_no_failures _ hfail]
    exact hdone
  · simp only [gatherResult, failures, hfail]

/-- C5 witness: the main gather group, both tasks free of failing steps. -/
theorem gather_waits_for_all_witness :
    (completions (sched 0 mainTasks).1).Perm (mainTasks.map Task.name) ∧
    (∀ e ∈ (sched 0 mainTasks).1, eventTime e ≤ (sched 0 mainTasks).2) ∧
    gatherResult (sched 0 mainTasks).1 = Except.ok () :=
  gather_waits_for_all 0 mainTasks (by decide)

/-- C6: if one step of a task fails, that task runs no further steps (its
records are exactly its leading successful steps), the failure propagates
to the gather call awaiting it without retry (exactly one failure event,
surfaced as the gather result), and the top-level caller's exit code is
non-zero. -/
theorem failure_propagation (now : Nat) (ts : List Task) (t : Task)
    (hmem : t ∈ ts) (hfail : StepOutcome.fail ∈ t.steps)
    (hnodup : (ts.map Task.name).Nodup)
    (hothers : ∀ u ∈ ts, u ≠ t → noFail u) :
    (records (sched now ts).1).count t.name = leadingOks t.steps ∧
    failures (sched now ts).1 = [t.name] ∧
    gatherResult (sched now ts).1 = Except.error t.name ∧
    exitCode (sched now ts).1 ≠ 0 := by
  obtain ⟨hc, hf⟩ := schedF_failure_spec (tasksMeasure ts) now ts t (Nat.le_refl _)
    hmem hfail hnodup hothers
  refine ⟨hc, hf, ?_, ?_⟩
  · simp only [gatherResult, failures]
    rw [show (sched now ts).1.filterMap failureName = [t.name] from hf]
  · simp only [exitCode, gatherResult, failures]
    rw [show (sched now ts).1.filterMap failureName = [t.name] from hf]
    simp

/-- C6 witness: Task B's first step fails in the group A(5 steps), B. -/
theorem failure_propagation_witness :
    (records (sched 0 [printer "A" 5, failingB]).1).count "B" = 0 ∧
    failures (sched 0 [printer "A" 5, failingB]).1 = ["B"] ∧
    gatherResult (sched 0 [printer "A" 5, failingB]).1 = Except.error "B" ∧
    exitCode (sched 0 [printer "A" 5, failingB]).1 ≠ 0 :=
  failure_propagation 0 [printer "A" 5, failingB] failingB (by decide) (by decide)
    (by decide) (by decide)

/-- C7: gather on an empty task list returns immediately (at the current
time) with success and emits no events, in particular no side-effect
records. -/
theorem gather_empty_noop (now : Nat) :
    sched now [] = ([], now) ∧ gatherResult (sched now []).1 = Except.ok () ∧
    records (sched now []).1 = [] :=
  ⟨rfl, rfl, rfl⟩

end AsyncSched

/-- C8: `check_password` raises the 400 "Passwords don't match." exception
iff the two inputs differ, and returns the "Passwords match." message iff
they are equal. -/
theorem check_password_iff (p c : String) :
    (Chapter3.check_password p c = Chapter3.PasswordResult.httpError 400 "Passwords don't match."
      ↔ p ≠ c) ∧
    (Chapter3.check_password p c = Chapter3.PasswordResult.ok "Passwords match." ↔ p = c) := by
  by_cases h : p = c <;> simp [Chapter3.check_password, h]

/-- C9: `update_or_create_post` maps `id` to `post`, changes no other key,
sets status 201 exactly when `id` was absent, and is idempotent on the
store. -/
theorem update_or_create_post_spec (id : Int) (post : Chapter3.Post)
    (store : Int → Option Chapter3.Post) :
    ((Chapter3.update_or_create_post id post store).1 id = some post) ∧
    (∀ k, k ≠ id → (Chapter3.update_or_create_post id post store).1 k = store k) ∧
    ((Chapter3.update_or_create_post id post store).2.1 = some 201 ↔ store id = none) ∧
    ((Chapter3.update_or_create_post id post
        ((Chapter3.update_or_create_post id post store).1)).1
      = (Chapter3.update_or_create_post id post store).1) := by
  refine ⟨by simp [Chapter3.update_or_create_post], ?_, ?_, ?_⟩
  · intro k hk
    simp [Chapter3.update_or_create_post, hk]
  · cases h : store id <;> simp [Chapter3.update_or_create_post, h]
  · funext k
    by_cases hk : k = id <;> simp [Chapter3.update_or_create_post, hk]

/-- C10: `get_post id` is an unhandled key error for every id other than 1
(the only key of the initial store), and returns the stored post for
id = 1. -/
theorem get_post_spec (id : Int) :
    (id ≠ 1 → Chapter3.get_post id = Chapter3.LookupResult.keyError id) ∧
    Chapter3.get_post 1 = Chapter3.LookupResult.found { title := "Hello", nb_views := 100 } := by
  constructor
  · intro h
    simp [Chapter3.get_post, Chapter3.posts, h]
  · rfl
